import Mathlib

/-!
Verification of the py-sikulix multi-point color finder and wrapper layers.

This file is a shallow embedding of the parts of the repository the claims
are about:

* `extend/finder.py` — the `_numba_kernel` multi-point color search, the
  mask/candidate extraction and result translation of
  `CrossPlatformFinder.find_multi_color`, and the color-string parsing of
  `CrossPlatformFinder._parse_config`;
* `location.py` — the forwarding wrapper class `Location`;
* `gateway.py` — the `SikuliXGateway` process launcher.

Pixel channels (`uint8` frame data mixed with `int32` color rows; numba
promotes the mixed arithmetic to wide integers, so no wrap-around occurs)
are modelled as integers.  The Python floats of the similarity computation
are modelled as rationals; similarity thresholds and scores are exact here.
-/

namespace PySikulix

/-- A BGR pixel of the captured frame (the alpha channel of the BGRA frame
is never read by the finder). -/
structure BGR where
  b : ℤ
  g : ℤ
  r : ℤ
  deriving DecidableEq

/-- One row of the `(N, 8)` `sub_colors` array passed to `_numba_kernel`:
offset X, offset Y, target B, target G, target R, bias B, bias G, bias R. -/
structure SubColor where
  offX : ℤ
  offY : ℤ
  b : ℤ
  g : ℤ
  r : ℤ
  biasB : ℤ
  biasG : ℤ
  biasR : ℤ
  deriving DecidableEq

/-- The captured frame: height, width, and the pixel map.  The map is total
on ℤ × ℤ so that out-of-range reads can be talked about at all; the safety
theorem for C9 shows the kernel never depends on values outside
[0, h) × [0, w). -/
structure Image where
  h : ℕ
  w : ℕ
  pix : ℤ → ℤ → BGR

/-- Body of the inner loop of `_numba_kernel` for one sub point of anchor
(mainY, mainX): the bounds check (a sub point outside the frame contributes
nothing), the per-channel tolerance check, and on success the score
1 - (|ΔB| + |ΔG| + |ΔR|) / 765. -/
def subScore (img : Image) (mainY mainX : ℤ) (sc : SubColor) : ℚ :=
  let subX := mainX + sc.offX
  let subY := mainY + sc.offY
  if 0 ≤ subX ∧ subX < (img.w : ℤ) ∧ 0 ≤ subY ∧ subY < (img.h : ℤ) then
    let p := img.pix subY subX
    let absB := |p.b - sc.b|
    let absG := |p.g - sc.g|
    let absR := |p.r - sc.r|
    if absB ≤ sc.biasB ∧ absG ≤ sc.biasG ∧ absR ≤ sc.biasR then
      1 - ((absB + absG + absR : ℤ) : ℚ) / 765
    else 0
  else 0

/-- The four offset-bound accumulators of `_numba_kernel`
(max_offset_x, min_offset_x, max_offset_y, min_offset_y).  In the source
they are initialised to 0 once, before the candidate loop, and updated
incrementally inside the sub-point loop. -/
@[ext]
structure OffsetBounds where
  maxX : ℤ
  minX : ℤ
  maxY : ℤ
  minY : ℤ
  deriving DecidableEq

/-- The four bound updates at the top of the sub-point loop body. -/
def updBounds (bd : OffsetBounds) (sc : SubColor) : OffsetBounds :=
  ⟨max bd.maxX sc.offX, min bd.minX sc.offX,
   max bd.maxY sc.offY, min bd.minY sc.offY⟩

/-- The initial accumulator values (line 48-51 of finder.py). -/
def zeroBounds : OffsetBounds := ⟨0, 0, 0, 0⟩

/-- The inner (sub-point) loop of `_numba_kernel` for one candidate anchor:
updates the offset bounds, accumulates the match score, and exits early when
the accumulated score plus the number of unvisited sub points (each worth at
most 1) can no longer reach minScore = total_points * similarity_threshold. -/
def innerLoop (img : Image) (mainY mainX : ℤ) (minScore : ℚ) :
    List SubColor → ℚ → OffsetBounds → ℚ × OffsetBounds
  | [], score, bd => (score, bd)
  | sc :: rest, score, bd =>
      let bd' := updBounds bd sc
      let score' := score + subScore img mainY mainX sc
      if score' + (rest.length : ℚ) < minScore then (score', bd')
      else innerLoop img mainY mainX minScore rest score' bd'

/-- The 8-tuple `_numba_kernel` returns on success: box corner, box width
and height, similarity, and the anchor pixel's R, G, B channels. -/
structure KResult where
  x : ℤ
  y : ℤ
  w : ℤ
  h : ℤ
  sim : ℚ
  r : ℤ
  g : ℤ
  b : ℤ
  deriving DecidableEq

/-- The outer (candidate) loop of `_numba_kernel`.  Candidates are the
zipped (y_cands[i], x_cands[i]) pairs in array order; the offset-bound
accumulators thread through all candidates because the source initialises
them outside this loop. -/
def kernelLoop (img : Image) (subs : List SubColor) (thr : ℚ) :
    List (ℤ × ℤ) → OffsetBounds → Option KResult
  | [], _ => none
  | c :: rest, bd =>
      let res := innerLoop img c.1 c.2 ((subs.length + 1 : ℚ) * thr) subs 1 bd
      let similarity := res.1 / (subs.length + 1 : ℚ)
      if similarity < thr then kernelLoop img subs thr rest res.2
      else
        some ⟨c.2 + res.2.minX, c.1 + res.2.minY,
              res.2.maxX - res.2.minX, res.2.maxY - res.2.minY,
              similarity,
              (img.pix c.1 c.2).r, (img.pix c.1 c.2).g, (img.pix c.1 c.2).b⟩

/-- `_numba_kernel(y_cands, x_cands, image, sub_colors, similarity_threshold)`
with the two candidate arrays given as one list of (y, x) pairs. -/
def numba_kernel (cands : List (ℤ × ℤ)) (img : Image) (subs : List SubColor)
    (thr : ℚ) : Option KResult :=
  kernelLoop img subs thr cands zeroBounds

/-- Total score of a candidate when every sub point is evaluated: 1 for the
anchor (the source always credits the main point in full) plus the sum of
all sub-point scores. -/
def fullScore (img : Image) (mainY mainX : ℤ) (subs : List SubColor) : ℚ :=
  1 + (subs.map (subScore img mainY mainX)).sum

/-- Aggregate match ratio of a candidate anchor:
(1 + sum of sub-point scores) / (N + 1). -/
def aggRatio (img : Image) (mainY mainX : ℤ) (subs : List SubColor) : ℚ :=
  fullScore img mainY mainX subs / (subs.length + 1 : ℚ)

/-- The kernel's per-candidate acceptance test, exactly as `_numba_kernel`
computes it: run the early-exit inner loop starting from score 1, divide by
total_points, and accept unless the result is below the threshold. -/
def candidateAccepted (img : Image) (subs : List SubColor) (thr : ℚ)
    (bd : OffsetBounds) (c : ℤ × ℤ) : Prop :=
  ¬ (innerLoop img c.1 c.2 ((subs.length + 1 : ℚ) * thr) subs 1 bd).1 /
      (subs.length + 1 : ℚ) < thr

/-- Largest x-offset over {0} ∪ the sub points' x-offsets. -/
def maxOffX (subs : List SubColor) : ℤ :=
  subs.foldl (fun a sc => max a sc.offX) 0

/-- Smallest x-offset over {0} ∪ the sub points' x-offsets. -/
def minOffX (subs : List SubColor) : ℤ :=
  subs.foldl (fun a sc => min a sc.offX) 0

/-- Largest y-offset over {0} ∪ the sub points' y-offsets. -/
def maxOffY (subs : List SubColor) : ℤ :=
  subs.foldl (fun a sc => max a sc.offY) 0

/-- Smallest y-offset over {0} ∪ the sub points' y-offsets. -/
def minOffY (subs : List SubColor) : ℤ :=
  subs.foldl (fun a sc => min a sc.offY) 0

/-- The saturated offset bounds: the extrema over the full constellation
{0} ∪ offsets, i.e. the values the four accumulators hold after a complete
pass over sub_colors. -/
def satBounds (subs : List SubColor) : OffsetBounds :=
  ⟨maxOffX subs, minOffX subs, maxOffY subs, minOffY subs⟩

/-- The result `_numba_kernel` reports for an accepted anchor c = (y, x):
box corner (x + min X, y + min Y), box size (max X - min X, max Y - min Y)
over X = {0} ∪ x-offsets and Y = {0} ∪ y-offsets, the aggregate ratio, and
the anchor pixel's channels. -/
def specResult (img : Image) (subs : List SubColor) (c : ℤ × ℤ) : KResult :=
  ⟨c.2 + minOffX subs, c.1 + minOffY subs,
   maxOffX subs - minOffX subs, maxOffY subs - minOffY subs,
   aggRatio img c.1 c.2 subs,
   (img.pix c.1 c.2).r, (img.pix c.1 c.2).g, (img.pix c.1 c.2).b⟩

/-- Modelled from the spec for the refinement claim C3: the naive scan that
"evaluates all N sub points for every candidate" — the kernel's inner loop
with the early-exit break removed, everything else unchanged. -/
def naiveInner (img : Image) (mainY mainX : ℤ) :
    List SubColor → ℚ → OffsetBounds → ℚ × OffsetBounds
  | [], score, bd => (score, bd)
  | sc :: rest, score, bd =>
      naiveInner img mainY mainX rest
        (score + subScore img mainY mainX sc) (updBounds bd sc)

/-- Candidate loop of the naive scan (identical to `kernelLoop` except that
it uses `naiveInner`). -/
def naiveLoop (img : Image) (subs : List SubColor) (thr : ℚ) :
    List (ℤ × ℤ) → OffsetBounds → Option KResult
  | [], _ => none
  | c :: rest, bd =>
      let res := naiveInner img c.1 c.2 subs 1 bd
      let similarity := res.1 / (subs.length + 1 : ℚ)
      if similarity < thr then naiveLoop img subs thr rest res.2
      else
        some ⟨c.2 + res.2.minX, c.1 + res.2.minY,
              res.2.maxX - res.2.minX, res.2.maxY - res.2.minY,
              similarity,
              (img.pix c.1 c.2).r, (img.pix c.1 c.2).g, (img.pix c.1 c.2).b⟩

/-- The naive kernel: same interface as `numba_kernel`, no early exit. -/
def naive_kernel (cands : List (ℤ × ℤ)) (img : Image) (subs : List SubColor)
    (thr : ℚ) : Option KResult :=
  naiveLoop img subs thr cands zeroBounds

/-- np.clip(v, 0, 255). -/
def clip255 (v : ℤ) : ℤ := min (max v 0) 255

/-- One channel of the cv2.inRange test of `find_multi_color`, with the
clipped lower/upper bounds the source computes
(np.clip(main - bias, 0, 255) and np.clip(main + bias, 0, 255)). -/
def chanInRange (p m bias : ℤ) : Prop :=
  clip255 (m - bias) ≤ p ∧ p ≤ clip255 (m + bias)

/-- The candidate mask of `find_multi_color`:
cv2.inRange(frame[:, :, :3], lower, upper) > 0 at pixel (y, x). -/
def maskAt (img : Image) (mainBgr mainBias : BGR) (y x : ℕ) : Prop :=
  chanInRange (img.pix (y : ℤ) (x : ℤ)).b mainBgr.b mainBias.b ∧
  chanInRange (img.pix (y : ℤ) (x : ℤ)).g mainBgr.g mainBias.g ∧
  chanInRange (img.pix (y : ℤ) (x : ℤ)).r mainBgr.r mainBias.r

instance decMaskAt (img : Image) (mainBgr mainBias : BGR) (y x : ℕ) :
    Decidable (maskAt img mainBgr mainBias y x) := by
  unfold maskAt chanInRange
  infer_instance

/-- Row-major coordinate order of an h × w frame, as np.where enumerates a
2-D boolean array. -/
def allCoords (h w : ℕ) : List (ℕ × ℕ) :=
  (List.range h).flatMap (fun y => (List.range w).map (fun x => (y, x)))

/-- y_cands, x_cands = np.where(mask): the row-major list of mask hits. -/
def candList (img : Image) (mainBgr mainBias : BGR) : List (ℕ × ℕ) :=
  (allCoords img.h img.w).filter (fun c => decide (maskAt img mainBgr mainBias c.1 c.2))

/-- Coordinate cast from mask indices to the kernel's integer coordinates. -/
def toIntPair (c : ℕ × ℕ) : ℤ × ℤ := ((c.1 : ℤ), (c.2 : ℤ))

/-- `CrossPlatformFinder.find_multi_color` after config parsing and the
screen grab (the captured frame and the parsed colors are parameters):
mask the frame, collect candidates, return None when there are none, run
`_numba_kernel`, and translate the returned box by the region's top-left
corner, pairing it with the similarity. -/
def find_multi_color_core (img : Image) (mainBgr mainBias : BGR)
    (subs : List SubColor) (similarity : ℚ) (left top : ℤ) :
    Option ((ℤ × ℤ × ℤ × ℤ) × ℚ) :=
  let cands := (candList img mainBgr mainBias).map toIntPair
  if cands.length = 0 then none
  else
    match numba_kernel cands img subs similarity with
    | none => none
    | some res => some ((res.x + left, res.y + top, res.w, res.h), res.sim)

/-- The remote Location objects of the py4j gateway, as a free algebra: a
constructor records each remote method invocation together with its
arguments, so "the wrapper forwarded exactly this call" is expressible. -/
inductive JavaLocation where
  | fromXY (x y : ℤ)
  | callOffset (base : JavaLocation) (dx dy : ℤ)
  | callAbove (base : JavaLocation) (d : ℤ)
  | callBelow (base : JavaLocation) (d : ℤ)
  | callLeft (base : JavaLocation) (d : ℤ)
  | callRight (base : JavaLocation) (d : ℤ)
  deriving DecidableEq

/-- Number of remote calls recorded in a remote-object history (used to show
a forwarded call yields a handle distinct from the original). -/
def JavaLocation.depth : JavaLocation → ℕ
  | .fromXY _ _ => 0
  | .callOffset base _ _ => base.depth + 1
  | .callAbove base _ => base.depth + 1
  | .callBelow base _ => base.depth + 1
  | .callLeft base _ => base.depth + 1
  | .callRight base _ => base.depth + 1

/-- The Python-side `Location` wrapper: it holds the remote handle
self._raw. -/
structure Location where
  raw : JavaLocation

/-- Location.offset: return Location(self._raw.offset(dx, dy)). -/
def Location.offset (self : Location) (dx dy : ℤ) : Location :=
  ⟨self.raw.callOffset dx dy⟩

/-- Location.above: return Location(self._raw.above(d)). -/
def Location.above (self : Location) (d : ℤ) : Location :=
  ⟨self.raw.callAbove d⟩

/-- Location.below: return Location(self._raw.below(d)). -/
def Location.below (self : Location) (d : ℤ) : Location :=
  ⟨self.raw.callBelow d⟩

/-- Location.left: return Location(self._raw.left(d)). -/
def Location.left (self : Location) (d : ℤ) : Location :=
  ⟨self.raw.callLeft d⟩

/-- Location.right: return Location(self._raw.right(d)). -/
def Location.right (self : Location) (d : ℤ) : Location :=
  ⟨self.raw.callRight d⟩

/-- The environment a `SikuliXGateway.start` / `stop` run interacts with:
what `find_sikulix_jar` would return, whether `poll()` still reports the
spawned subprocess alive after the one-second startup delay, and whether
`test_connection` succeeds. -/
structure GatewayEnv where
  jarLookup : Option String
  aliveAfterDelay : Bool
  connectionOk : Bool

/-- The mutable state of a `SikuliXGateway` object: the port, the spawned
process handle (None until `start` spawns one), and the JAR path. -/
structure SikuliXGateway where
  port : ℤ
  gatewayProcess : Option Unit
  sikulixPath : Option String

/-- `SikuliXGateway.start`: resolve the JAR (via `find_sikulix_jar` when
`sikulix_path` is unset, returning False when none is found), spawn the
subprocess, and after the startup delay return False when the process has
already exited, otherwise the result of `test_connection`.  Returns the
Boolean result together with the updated object state. -/
def SikuliXGateway.start (gw : SikuliXGateway) (env : GatewayEnv) :
    Bool × SikuliXGateway :=
  let path := match gw.sikulixPath with
    | none => env.jarLookup
    | some p => some p
  match path with
  | none => (false, ⟨gw.port, gw.gatewayProcess, none⟩)
  | some p =>
    let spawned : SikuliXGateway := ⟨gw.port, some (), some p⟩
    if env.aliveAfterDelay then (env.connectionOk, spawned)
    else (false, spawned)

/-- The process-control side effects `SikuliXGateway.stop` can perform. -/
inductive StopAction where
  | terminate
  | waitProc
  | kill
  deriving DecidableEq

/-- `SikuliXGateway.stop`: when no process was ever started, return at once
with no action; otherwise terminate, wait, and kill only when the wait
times out.  Returns the (unchanged) state with the actions performed. -/
def SikuliXGateway.stop (gw : SikuliXGateway) (waitTimesOut : Bool) :
    SikuliXGateway × List StopAction :=
  match gw.gatewayProcess with
  | none => (gw, [])
  | some _ =>
    if waitTimesOut then (gw, [.terminate, .waitProc, .kill])
    else (gw, [.terminate, .waitProc])

/-- Value of a decimal digit character, else None (used to model int(s)). -/
def decDigitVal (c : Char) : Option ℕ :=
  if '0' ≤ c ∧ c ≤ '9' then some (c.toNat - 48) else none

/-- Value of a hexadecimal digit character, else None (used to model
int(s, 16)). -/
def hexDigitVal (c : Char) : Option ℕ :=
  if '0' ≤ c ∧ c ≤ '9' then some (c.toNat - 48)
  else if 'a' ≤ c ∧ c ≤ 'f' then some (c.toNat - 87)
  else if 'A' ≤ c ∧ c ≤ 'F' then some (c.toNat - 55)
  else none

/-- Accumulate the value of a digit run; None as soon as one character is
not a digit of the base. -/
def digitsVal (digit : Char → Option ℕ) (base : ℕ) :
    List Char → ℕ → Option ℕ
  | [], acc => some acc
  | c :: rest, acc =>
    match digit c with
    | some d => digitsVal digit base rest (acc * base + d)
    | none => none

/-- Value of a nonempty digit run; None when empty or when any character is
not a digit of the base. -/
def digitsRun (digit : Char → Option ℕ) (base : ℕ) :
    List Char → Option ℕ
  | [] => none
  | c :: rest =>
    match digit c with
    | some d => digitsVal digit base rest d
    | none => none

/-- Models Python int(s) / int(s, 16) on the strings the finder passes it:
an optional single sign followed by a nonempty digit run; None models the
ValueError raised on any other shape.  (CPython would additionally strip
whitespace and allow underscore separators and a base prefix; the finder's
color fields never carry those forms and they are not modelled.) -/
def pyIntOf (digit : Char → Option ℕ) (base : ℕ) (s : List Char) : Option ℤ :=
  match s with
  | '-' :: rest => (digitsRun digit base rest).map (fun n => -(n : ℤ))
  | '+' :: rest => (digitsRun digit base rest).map (fun n => (n : ℤ))
  | _ => (digitsRun digit base s).map (fun n => (n : ℤ))

/-- Python int(s) on a decimal offset field. -/
def pyInt (s : List Char) : Option ℤ := pyIntOf decDigitVal 10 s

/-- Python int(s, 16) on a sliced color chunk. -/
def pyIntHex (s : List Char) : Option ℤ := pyIntOf hexDigitVal 16 s

/-- Python slice s[a:b] on a character list (for 0 ≤ a ≤ b). -/
def slicePy (s : List Char) (a b : ℕ) : List Char := (s.drop a).take (b - a)

/-- `CrossPlatformFinder._rgb_to_bgr`:
[int(hex_str[4:6], 16), int(hex_str[2:4], 16), int(hex_str[0:2], 16)];
None models the ValueError int raises on a chunk that is not a hex
numeral. -/
def rgb_to_bgr (hex_str : List Char) : Option (ℤ × ℤ × ℤ) :=
  match pyIntHex (slicePy hex_str 4 6), pyIntHex (slicePy hex_str 2 4),
      pyIntHex (slicePy hex_str 0 2) with
  | some b, some g, some r => some (b, g, r)
  | _, _, _ => none

/-- Python str.split(sep) for a one-character separator: splitting the
empty string yields [''], and separators at the ends yield empty fields. -/
def pySplit (sep : Char) : List Char → List (List Char)
  | [] => [[]]
  | c :: rest =>
    match pySplit sep rest with
    | [] => [[]]
    | cur :: r => if c = sep then [] :: cur :: r else (c :: cur) :: r

/-- Outcome of `_parse_config` on one sub-point entry: silently skipped,
aborted by an uncaught ValueError from int(s, 16), or a parsed sub point. -/
inductive EntryResult where
  | skip
  | err
  | sub (sc : SubColor)
  deriving DecidableEq

/-- One iteration of the sub-point loop of `_parse_config`: entries with
fewer than two fields, unparseable offsets (the try/except catches only
these), fewer than three fields, or a color field whose length is not 6 are
skipped; a 6-character color (or bias) field that is not valid hex raises
out of the loop; a bias field whose length is not 6 degrades to 0|0|0. -/
def parseSubEntry (entry : List Char) : EntryResult :=
  let parts := pySplit '|' entry
  if parts.length < 2 then .skip
  else
    match pyInt (parts.getD 0 []), pyInt (parts.getD 1 []) with
    | some ox, some oy =>
      if parts.length < 3 then .skip
      else
        let colorVal := parts.getD 2 []
        if colorVal.length ≠ 6 then .skip
        else
          match rgb_to_bgr colorVal with
          | none => .err
          | some (cb, cg, cr) =>
            if 4 ≤ parts.length ∧ (parts.getD 3 []).length = 6 then
              match rgb_to_bgr (parts.getD 3 []) with
              | none => .err
              | some (bb, bg, br) => .sub ⟨ox, oy, cb, cg, cr, bb, bg, br⟩
            else .sub ⟨ox, oy, cb, cg, cr, 0, 0, 0⟩
    | _, _ => .skip

/-- The sub-point loop of `_parse_config` over all entries after the first:
None models a ValueError escaping the loop. -/
def collectSubs : List (List Char) → Option (List SubColor)
  | [] => some []
  | e :: rest =>
    match parseSubEntry e with
    | .err => none
    | .skip => collectSubs rest
    | .sub sc => (collectSubs rest).map (fun l => sc :: l)

/-- The main-point part of `_parse_config`: first comma field, split on |,
main color from field 0, tolerance from field 1 when present (0|0|0
otherwise); None models a ValueError from int(s, 16). -/
def parseMain (s : List Char) : Option ((ℤ × ℤ × ℤ) × (ℤ × ℤ × ℤ)) :=
  let mainPart := pySplit '|' ((pySplit ',' s).getD 0 [])
  match rgb_to_bgr (mainPart.getD 0 []) with
  | none => none
  | some mb =>
    if 2 ≤ mainPart.length then
      match rgb_to_bgr (mainPart.getD 1 []) with
      | none => none
      | some mt => some (mb, mt)
    else some (mb, (0, 0, 0))

/-- `CrossPlatformFinder._parse_config`: main color and tolerance, then the
sub-point loop; None models a ValueError escaping the method.  (The
source's early return None for an empty split list is unreachable:
str.split always yields at least one field.) -/
def parse_config (s : List Char) : Option ((ℤ × ℤ × ℤ) × (ℤ × ℤ × ℤ) × List SubColor) :=
  match parseMain s with
  | none => none
  | some (mb, mt) =>
    match collectSubs ((pySplit ',' s).drop 1) with
    | none => none
    | some subs => some (mb, mt, subs)

/-- How the validation phase of `find_multi_color` ends: with a ValueError,
or entering the screen grab with the parsed configuration and the resolved
search rectangle. -/
inductive FMCOutcome where
  | valueError
  | search (main bias : ℤ × ℤ × ℤ) (subs : List SubColor)
      (left top width height : ℤ)
  deriving DecidableEq

/-- The parsing/validation phase of `find_multi_color` (everything before
the screen grab): parse the color string (a ValueError from parsing
propagates), raise when no sub point was parsed, then resolve the region:
falsy (None or empty) means the whole screen, length ≥ 4 takes the first
four values, length 2 or 3 takes left/top and the screen size minus them,
and length 1 raises. -/
def fmc_validate (screenW screenH : ℤ) (color_str : List Char)
    (region : Option (List ℤ)) : FMCOutcome :=
  match parse_config color_str with
  | none => .valueError
  | some (mb, mt, subs) =>
    if subs.length = 0 then .valueError
    else
      match region with
      | none => .search mb mt subs 0 0 screenW screenH
      | some r =>
        if r.length = 0 then .search mb mt subs 0 0 screenW screenH
        else if 4 ≤ r.length then
          .search mb mt subs (r.getD 0 0) (r.getD 1 0) (r.getD 2 0) (r.getD 3 0)
        else if 2 ≤ r.length then
          .search mb mt subs (r.getD 0 0) (r.getD 1 0)
            (screenW - r.getD 0 0) (screenH - r.getD 1 0)
        else .valueError

/-- Whether an entry of the color string parses to a valid sub point (the
claims' notion of a valid offset sub point). -/
def entryIsSub (e : List Char) : Bool :=
  match parseSubEntry e with
  | .sub _ => true
  | _ => false

/-- Whether an entry aborts `_parse_config` with an uncaught ValueError. -/
def entryErrs (e : List Char) : Bool :=
  match parseSubEntry e with
  | .err => true
  | _ => false

/-- Number of valid offset sub points a color string parses to. -/
def validSubCount (s : List Char) : ℕ :=
  (((pySplit ',' s).drop 1).filter entryIsSub).length

/-- The sub points of the valid entries, in order (the entries a run of
`_parse_config` keeps when no entry raises). -/
def subsOf (s : List Char) : List SubColor :=
  ((pySplit ',' s).drop 1).filterMap (fun e =>
    match parseSubEntry e with
    | .sub sc => some sc
    | _ => none)

/-- Invariant of the four offset-bound accumulators throughout a kernel
run: each accumulator sits between its initial value 0 and the
corresponding extremum over the sub points' offsets. -/
def BoundsInv (subs : List SubColor) (bd : OffsetBounds) : Prop :=
  0 ≤ bd.maxX ∧ bd.maxX ≤ maxOffX subs ∧ bd.minX ≤ 0 ∧ minOffX subs ≤ bd.minX ∧
  0 ≤ bd.maxY ∧ bd.maxY ≤ maxOffY subs ∧ bd.minY ≤ 0 ∧ minOffY subs ≤ bd.minY

/-- A concrete 1 × 1 frame whose only pixel is BGR (1, 2, 3). -/
def wImgA : Image := ⟨1, 1, fun _ _ => ⟨1, 2, 3⟩⟩

/-- The same frame as `wImgA` inside [0, 1) × [0, 1) but with different
out-of-range values. -/
def wImgB : Image :=
  ⟨1, 1, fun y x => if 0 ≤ y ∧ y < 1 ∧ 0 ≤ x ∧ x < 1 then ⟨1, 2, 3⟩ else ⟨9, 9, 9⟩⟩

/-- A concrete one-point sub-color table matching `wImgA`'s pixel exactly. -/
def wSubs : List SubColor := [⟨0, 0, 1, 2, 3, 0, 0, 0⟩]

/-- The single candidate (0, 0). -/
def wCands : List (ℤ × ℤ) := [(0, 0)]

/-- The kernel result for `wImgA`/`wSubs` at candidate (0, 0). -/
def wRes : KResult := ⟨0, 0, 0, 0, 1, 3, 2, 1⟩

/-- A color string with one valid sub point followed by a sub point whose
6-character color field is not hexadecimal. -/
def c10Input : List Char := ("ffffff|000000,1|2|aabbcc,3|4|zzzzzz").toList

/-- A color string with a valid main color, tolerance and one sub point. -/
def c10WitnessInput : List Char := ("ffffff|000000,1|2|aabbcc").toList

theorem subScore_le_one (img : Image) (my mx : ℤ) (sc : SubColor) :
    subScore img my mx sc ≤ 1 := by
  simp only [subScore]
  split_ifs with h1 h2
  · have hz : (0:ℤ) ≤ |(img.pix (my + sc.offY) (mx + sc.offX)).b - sc.b| +
        |(img.pix (my + sc.offY) (mx + sc.offX)).g - sc.g| +
        |(img.pix (my + sc.offY) (mx + sc.offX)).r - sc.r| := by positivity
    have hq : (0:ℚ) ≤ ((|(img.pix (my + sc.offY) (mx + sc.offX)).b - sc.b| +
        |(img.pix (my + sc.offY) (mx + sc.offX)).g - sc.g| +
        |(img.pix (my + sc.offY) (mx + sc.offX)).r - sc.r| : ℤ) : ℚ) / 765 := by
      apply div_nonneg _ (by norm_num)
      exact_mod_cast hz
    linarith
  · norm_num
  · norm_num

theorem sum_subScore_le (img : Image) (my mx : ℤ) (l : List SubColor) :
    (l.map (subScore img my mx)).sum ≤ (l.length : ℚ) := by
  induction l with
  | nil => simp
  | cons sc rest ih =>
    have h1 := subScore_le_one img my mx sc
    simp only [List.map_cons, List.sum_cons, List.length_cons]
    push_cast
    linarith

theorem innerLoop_fst_indep (img : Image) (my mx : ℤ) (ms : ℚ)
    (l : List SubColor) (acc : ℚ) (bd₁ bd₂ : OffsetBounds) :
    (innerLoop img my mx ms l acc bd₁).1 = (innerLoop img my mx ms l acc bd₂).1 := by
  induction l generalizing acc bd₁ bd₂ with
  | nil => rfl
  | cons sc rest ih =>
    simp only [innerLoop]
    split_ifs
    · rfl
    · exact ih _ _ _

theorem innerLoop_of_ge (img : Image) (my mx : ℤ) (ms : ℚ)
    (l : List SubColor) (acc : ℚ) (bd : OffsetBounds)
    (h : ms ≤ (innerLoop img my mx ms l acc bd).1) :
    innerLoop img my mx ms l acc bd =
      (acc + (l.map (subScore img my mx)).sum, List.foldl updBounds bd l) := by
  induction l generalizing acc bd with
  | nil => simp [innerLoop]
  | cons sc rest ih =>
    by_cases hbr : acc + subScore img my mx sc + (rest.length : ℚ) < ms
    · exfalso
      have hres : (innerLoop img my mx ms (sc :: rest) acc bd).1
          = acc + subScore img my mx sc := by
        simp only [innerLoop]
        rw [if_pos hbr]
      have hlen : (0:ℚ) ≤ (rest.length : ℚ) := by positivity
      rw [hres] at h
      linarith
    · have hstep : innerLoop img my mx ms (sc :: rest) acc bd
          = innerLoop img my mx ms rest (acc + subScore img my mx sc) (updBounds bd sc) := by
        simp only [innerLoop]
        rw [if_neg hbr]
      rw [hstep] at h ⊢
      rw [ih _ _ h]
      simp only [List.map_cons, List.sum_cons, List.foldl_cons]
      exact congrArg (fun q => (q, List.foldl updBounds (updBounds bd sc) rest)) (by ring)

theorem innerLoop_lt (img : Image) (my mx : ℤ) (ms : ℚ)
    (l : List SubColor) (acc : ℚ) (bd : OffsetBounds)
    (h : (innerLoop img my mx ms l acc bd).1 < ms) :
    acc + (l.map (subScore img my mx)).sum < ms := by
  induction l generalizing acc bd with
  | nil => simpa [innerLoop] using h
  | cons sc rest ih =>
    by_cases hbr : acc + subScore img my mx sc + (rest.length : ℚ) < ms
    · have hsum := sum_subScore_le img my mx rest
      simp only [List.map_cons, List.sum_cons]
      linarith
    · have hstep : innerLoop img my mx ms (sc :: rest) acc bd
          = innerLoop img my mx ms rest (acc + subScore img my mx sc) (updBounds bd sc) := by
        simp only [innerLoop]
        rw [if_neg hbr]
      rw [hstep] at h
      have := ih _ _ h
      simp only [List.map_cons, List.sum_cons]
      linarith

theorem accepted_iff_ratio (img : Image) (subs : List SubColor) (thr : ℚ)
    (bd : OffsetBounds) (c : ℤ × ℤ) :
    candidateAccepted img subs thr bd c ↔ thr ≤ aggRatio img c.1 c.2 subs := by
  have hT : (0:ℚ) < (subs.length + 1 : ℚ) := by positivity
  unfold candidateAccepted aggRatio fullScore
  rw [not_lt, le_div_iff₀ hT, le_div_iff₀ hT]
  have hms : thr * ((subs.length : ℚ) + 1) = ((subs.length : ℚ) + 1) * thr :=
    mul_comm _ _
  constructor
  · intro h
    rw [hms] at h ⊢
    have heq := innerLoop_of_ge img c.1 c.2 ((subs.length + 1 : ℚ) * thr) subs 1 bd h
    have hfst : (innerLoop img c.1 c.2 ((subs.length + 1 : ℚ) * thr) subs 1 bd).1
        = 1 + (subs.map (subScore img c.1 c.2)).sum := congrArg Prod.fst heq
    rw [hfst] at h
    exact h
  · intro h
    rw [hms] at h
    by_contra hlt
    push_neg at hlt
    rw [hms] at hlt
    have := innerLoop_lt img c.1 c.2 ((subs.length + 1 : ℚ) * thr) subs 1 bd hlt
    linarith

theorem foldl_max_shift (f : SubColor → ℤ) (l : List SubColor) (a b : ℤ) :
    l.foldl (fun x sc => max x (f sc)) (max a b) =
      max a (l.foldl (fun x sc => max x (f sc)) b) := by
  induction l generalizing b with
  | nil => rfl
  | cons sc rest ih =>
    simp only [List.foldl_cons]
    rw [max_assoc]
    exact ih _

theorem foldl_min_shift (f : SubColor → ℤ) (l : List SubColor) (a b : ℤ) :
    l.foldl (fun x sc => min x (f sc)) (min a b) =
      min a (l.foldl (fun x sc => min x (f sc)) b) := by
  induction l generalizing b with
  | nil => rfl
  | cons sc rest ih =>
    simp only [List.foldl_cons]
    rw [min_assoc]
    exact ih _

theorem foldl_max_init_le (f : SubColor → ℤ) (l : List SubColor) (a : ℤ) :
    a ≤ l.foldl (fun x sc => max x (f sc)) a := by
  have h := foldl_max_shift f l a a
  rw [max_self] at h
  rw [h]
  exact le_max_left _ _

theorem foldl_min_init_ge (f : SubColor → ℤ) (l : List SubColor) (a : ℤ) :
    l.foldl (fun x sc => min x (f sc)) a ≤ a := by
  have h := foldl_min_shift f l a a
  rw [min_self] at h
  rw [h]
  exact min_le_left _ _

theorem mem_le_foldl_max (f : SubColor → ℤ) (l : List SubColor) (a : ℤ)
    (sc : SubColor) (h : sc ∈ l) :
    f sc ≤ l.foldl (fun x sc => max x (f sc)) a := by
  induction l generalizing a with
  | nil => cases h
  | cons e rest ih =>
    simp only [List.foldl_cons]
    rcases List.mem_cons.mp h with rfl | hmem
    · exact le_trans (le_max_right _ _) (foldl_max_init_le f rest _)
    · exact ih _ hmem

theorem foldl_min_le_mem (f : SubColor → ℤ) (l : List SubColor) (a : ℤ)
    (sc : SubColor) (h : sc ∈ l) :
    l.foldl (fun x sc => min x (f sc)) a ≤ f sc := by
  induction l generalizing a with
  | nil => cases h
  | cons e rest ih =>
    simp only [List.foldl_cons]
    rcases List.mem_cons.mp h with rfl | hmem
    · exact le_trans (foldl_min_init_ge f rest _) (min_le_right _ _)
    · exact ih _ hmem

theorem foldl_max_sat (f : SubColor → ℤ) (l : List SubColor) (a : ℤ)
    (h0 : 0 ≤ a) (hle : a ≤ l.foldl (fun x sc => max x (f sc)) 0) :
    l.foldl (fun x sc => max x (f sc)) a =
      l.foldl (fun x sc => max x (f sc)) 0 := by
  have h1 : max a 0 = a := max_eq_left h0
  have h2 := foldl_max_shift f l a 0
  rw [h1] at h2
  rw [h2, max_eq_right hle]

theorem foldl_min_sat (f : SubColor → ℤ) (l : List SubColor) (a : ℤ)
    (h0 : a ≤ 0) (hge : l.foldl (fun x sc => min x (f sc)) 0 ≤ a) :
    l.foldl (fun x sc => min x (f sc)) a =
      l.foldl (fun x sc => min x (f sc)) 0 := by
  have h1 : min a 0 = a := min_eq_left h0
  have h2 := foldl_min_shift f l a 0
  rw [h1] at h2
  rw [h2, min_eq_right hge]

theorem foldl_updBounds_maxX (l : List SubColor) (bd : OffsetBounds) :
    (List.foldl updBounds bd l).maxX =
      l.foldl (fun a sc => max a sc.offX) bd.maxX := by
  induction l generalizing bd with
  | nil => rfl
  | cons sc rest ih =>
    simp only [List.foldl_cons]
    exact ih _

theorem foldl_updBounds_minX (l : List SubColor) (bd : OffsetBounds) :
    (List.foldl updBounds bd l).minX =
      l.foldl (fun a sc => min a sc.offX) bd.minX := by
  induction l generalizing bd with
  | nil => rfl
  | cons sc rest ih =>
    simp only [List.foldl_cons]
    exact ih _

theorem foldl_updBounds_maxY (l : List SubColor) (bd : OffsetBounds) :
    (List.foldl updBounds bd l).maxY =
      l.foldl (fun a sc => max a sc.offY) bd.maxY := by
  induction l generalizing bd with
  | nil => rfl
  | cons sc rest ih =>
    simp only [List.foldl_cons]
    exact ih _

theorem foldl_updBounds_minY (l : List SubColor) (bd : OffsetBounds) :
    (List.foldl updBounds bd l).minY =
      l.foldl (fun a sc => min a sc.offY) bd.minY := by
  induction l generalizing bd with
  | nil => rfl
  | cons sc rest ih =>
    simp only [List.foldl_cons]
    exact ih _

theorem zeroBounds_inv (subs : List SubColor) : BoundsInv subs zeroBounds := by
  refine ⟨le_refl 0, ?_, le_refl 0, ?_, le_refl 0, ?_, le_refl 0, ?_⟩
  · exact foldl_max_init_le (fun sc => sc.offX) subs 0
  · exact foldl_min_init_ge (fun sc => sc.offX) subs 0
  · exact foldl_max_init_le (fun sc => sc.offY) subs 0
  · exact foldl_min_init_ge (fun sc => sc.offY) subs 0

theorem boundsInv_upd (subs : List SubColor) (bd : OffsetBounds) (sc : SubColor)
    (hmem : sc ∈ subs) (h : BoundsInv subs bd) :
    BoundsInv subs (updBounds bd sc) := by
  obtain ⟨h1, h2, h3, h4, h5, h6, h7, h8⟩ := h
  refine ⟨?_, ?_, ?_, ?_, ?_, ?_, ?_, ?_⟩
  · exact le_trans h1 (le_max_left _ _)
  · exact max_le h2 (mem_le_foldl_max (fun sc => sc.offX) subs 0 sc hmem)
  · exact le_trans (min_le_left _ _) h3
  · exact le_min h4 (foldl_min_le_mem (fun sc => sc.offX) subs 0 sc hmem)
  · exact le_trans h5 (le_max_left _ _)
  · exact max_le h6 (mem_le_foldl_max (fun sc => sc.offY) subs 0 sc hmem)
  · exact le_trans (min_le_left _ _) h7
  · exact le_min h8 (foldl_min_le_mem (fun sc => sc.offY) subs 0 sc hmem)

theorem foldl_updBounds_sat (subs : List SubColor) (bd : OffsetBounds)
    (h : BoundsInv subs bd) :
    List.foldl updBounds bd subs = satBounds subs := by
  obtain ⟨h1, h2, h3, h4, h5, h6, h7, h8⟩ := h
  apply OffsetBounds.ext
  · rw [foldl_updBounds_maxX]
    exact foldl_max_sat (fun sc => sc.offX) subs bd.maxX h1 h2
  · rw [foldl_updBounds_minX]
    exact foldl_min_sat (fun sc => sc.offX) subs bd.minX h3 h4
  · rw [foldl_updBounds_maxY]
    exact foldl_max_sat (fun sc => sc.offY) subs bd.maxY h5 h6
  · rw [foldl_updBounds_minY]
    exact foldl_min_sat (fun sc => sc.offY) subs bd.minY h7 h8

theorem innerLoop_snd_inv (img : Image) (my mx : ℤ) (ms : ℚ)
    (subs : List SubColor) :
    ∀ (l : List SubColor) (acc : ℚ) (bd : OffsetBounds),
      (∀ sc ∈ l, sc ∈ subs) → BoundsInv subs bd →
      BoundsInv subs (innerLoop img my mx ms l acc bd).2 := by
  intro l
  induction l with
  | nil =>
    intro acc bd _ h
    exact h
  | cons sc rest ih =>
    intro acc bd hsub h
    have hmem : sc ∈ subs := hsub sc (List.mem_cons_self _ _)
    have hbd' := boundsInv_upd subs bd sc hmem h
    simp only [innerLoop]
    split_ifs with hbr
    · exact hbd'
    · exact ih _ _ (fun e he => hsub e (List.mem_cons_of_mem _ he)) hbd'

theorem rejected_ratio_lt (img : Image) (subs : List SubColor) (thr : ℚ)
    (bd : OffsetBounds) (c : ℤ × ℤ)
    (h : (innerLoop img c.1 c.2 ((subs.length + 1 : ℚ) * thr) subs 1 bd).1 /
      (subs.length + 1 : ℚ) < thr) :
    aggRatio img c.1 c.2 subs < thr := by
  by_contra hle
  push_neg at hle
  exact absurd h ((accepted_iff_ratio img subs thr bd c).mpr hle)

theorem accepted_of_not_lt (img : Image) (subs : List SubColor) (thr : ℚ)
    (bd : OffsetBounds) (c : ℤ × ℤ)
    (h : ¬ (innerLoop img c.1 c.2 ((subs.length + 1 : ℚ) * thr) subs 1 bd).1 /
      (subs.length + 1 : ℚ) < thr) :
    thr ≤ aggRatio img c.1 c.2 subs :=
  (accepted_iff_ratio img subs thr bd c).mp h

theorem kernelLoop_none_iff (img : Image) (subs : List SubColor) (thr : ℚ) :
    ∀ (cands : List (ℤ × ℤ)) (bd : OffsetBounds),
      (kernelLoop img subs thr cands bd = none ↔
        ∀ c ∈ cands, aggRatio img c.1 c.2 subs < thr) := by
  intro cands
  induction cands with
  | nil =>
    intro bd
    simp [kernelLoop]
  | cons c rest ih =>
    intro bd
    simp only [kernelLoop]
    split_ifs with hrej
    · rw [ih _]
      constructor
      · intro hall d hd
        rcases List.mem_cons.mp hd with rfl | hmem
        · exact rejected_ratio_lt img subs thr bd d hrej
        · exact hall d hmem
      · intro hall d hd
        exact hall d (List.mem_cons_of_mem _ hd)
    · constructor
      · intro habs
        exact habs.elim
      · intro hall
        exact absurd (hall c (List.mem_cons_self _ _))
          (not_lt.mpr (accepted_of_not_lt img subs thr bd c hrej))

theorem kernelLoop_some_split (img : Image) (subs : List SubColor) (thr : ℚ) :
    ∀ (cands : List (ℤ × ℤ)) (bd : OffsetBounds) (res : KResult),
      BoundsInv subs bd → kernelLoop img subs thr cands bd = some res →
      ∃ pre c post, cands = pre ++ c :: post ∧
        (∀ d ∈ pre, aggRatio img d.1 d.2 subs < thr) ∧
        thr ≤ aggRatio img c.1 c.2 subs ∧
        res = specResult img subs c := by
  intro cands
  induction cands with
  | nil =>
    intro bd res _ h
    simp [kernelLoop] at h
  | cons c rest ih =>
    intro bd res hinv h
    simp only [kernelLoop] at h
    split_ifs at h with hrej
    · obtain ⟨pre, c', post, heq, hpre, hacc, hres⟩ :=
        ih _ _ (innerLoop_snd_inv img c.1 c.2 ((subs.length + 1 : ℚ) * thr) subs
          subs 1 bd (fun _ hmem => hmem) hinv) h
      refine ⟨c :: pre, c', post, ?_, ?_, hacc, hres⟩
      · rw [heq, List.cons_append]
      · intro d hd
        rcases List.mem_cons.mp hd with rfl | hmem
        · exact rejected_ratio_lt img subs thr bd d hrej
        · exact hpre d hmem
    · have hacc := accepted_of_not_lt img subs thr bd c hrej
      have hT : (0:ℚ) < ((subs.length : ℚ) + 1) := by positivity
      have hge : ((subs.length + 1 : ℚ) * thr) ≤
          (innerLoop img c.1 c.2 ((subs.length + 1 : ℚ) * thr) subs 1 bd).1 := by
        rw [not_lt, le_div_iff₀ hT] at hrej
        linarith [mul_comm thr ((subs.length : ℚ) + 1)]
      have heq := innerLoop_of_ge img c.1 c.2 ((subs.length + 1 : ℚ) * thr) subs 1 bd hge
      rw [heq, foldl_updBounds_sat subs bd hinv] at h
      refine ⟨[], c, rest, rfl, ?_, hacc, ?_⟩
      · intro d hd
        cases hd
      · have hx := Option.some.inj h
        rw [← hx]
        rfl

theorem satBounds_inv (subs : List SubColor) : BoundsInv subs (satBounds subs) := by
  refine ⟨?_, le_refl _, ?_, le_refl _, ?_, le_refl _, ?_, le_refl _⟩
  · exact foldl_max_init_le (fun sc => sc.offX) subs 0
  · exact foldl_min_init_ge (fun sc => sc.offX) subs 0
  · exact foldl_max_init_le (fun sc => sc.offY) subs 0
  · exact foldl_min_init_ge (fun sc => sc.offY) subs 0

theorem naiveInner_eq (img : Image) (my mx : ℤ) :
    ∀ (l : List SubColor) (acc : ℚ) (bd : OffsetBounds),
      naiveInner img my mx l acc bd =
        (acc + (l.map (subScore img my mx)).sum, List.foldl updBounds bd l) := by
  intro l
  induction l with
  | nil =>
    intro acc bd
    simp [naiveInner]
  | cons sc rest ih =>
    intro acc bd
    simp only [naiveInner, List.map_cons, List.sum_cons, List.foldl_cons]
    rw [ih]
    have harith : acc + subScore img my mx sc + (rest.map (subScore img my mx)).sum
        = acc + (subScore img my mx sc + (rest.map (subScore img my mx)).sum) := by
      ring
    rw [harith]

theorem kernelLoop_eq_naiveLoop (img : Image) (subs : List SubColor) (thr : ℚ) :
    ∀ (cands : List (ℤ × ℤ)) (bd₁ bd₂ : OffsetBounds),
      BoundsInv subs bd₁ → BoundsInv subs bd₂ →
      kernelLoop img subs thr cands bd₁ = naiveLoop img subs thr cands bd₂ := by
  intro cands
  induction cands with
  | nil =>
    intro bd₁ bd₂ _ _
    rfl
  | cons c rest ih =>
    intro bd₁ bd₂ h₁ h₂
    have hT : (0:ℚ) < ((subs.length : ℚ) + 1) := by positivity
    have hcond : ((innerLoop img c.1 c.2 ((subs.length + 1 : ℚ) * thr) subs 1 bd₁).1 /
          ((subs.length : ℚ) + 1) < thr) ↔
        ((1 + (subs.map (subScore img c.1 c.2)).sum) / ((subs.length : ℚ) + 1) < thr) := by
      constructor
      · intro hr
        have := rejected_ratio_lt img subs thr bd₁ c hr
        unfold aggRatio fullScore at this
        exact this
      · intro hr
        by_contra hn
        have := accepted_of_not_lt img subs thr bd₁ c hn
        unfold aggRatio fullScore at this
        exact absurd hr (not_lt.mpr this)
    simp only [kernelLoop, naiveLoop]
    rw [naiveInner_eq]
    by_cases hrejn : (1 + (subs.map (subScore img c.1 c.2)).sum) /
        ((subs.length : ℚ) + 1) < thr
    · have hrejk := hcond.mpr hrejn
      rw [if_pos hrejk, if_pos hrejn]
      apply ih
      · exact innerLoop_snd_inv img c.1 c.2 ((subs.length + 1 : ℚ) * thr) subs
          subs 1 bd₁ (fun _ hmem => hmem) h₁
      · rw [foldl_updBounds_sat subs bd₂ h₂]
        exact satBounds_inv subs
    · have hrejk : ¬ (innerLoop img c.1 c.2 ((subs.length + 1 : ℚ) * thr) subs 1 bd₁).1 /
          ((subs.length : ℚ) + 1) < thr := fun hr => hrejn (hcond.mp hr)
      rw [if_neg hrejk, if_neg hrejn]
      have hge : ((subs.length + 1 : ℚ) * thr) ≤
          (innerLoop img c.1 c.2 ((subs.length + 1 : ℚ) * thr) subs 1 bd₁).1 := by
        rw [not_lt, le_div_iff₀ hT] at hrejk
        linarith [mul_comm thr ((subs.length : ℚ) + 1)]
      rw [innerLoop_of_ge img c.1 c.2 ((subs.length + 1 : ℚ) * thr) subs 1 bd₁ hge,
        foldl_updBounds_sat subs bd₁ h₁, foldl_updBounds_sat subs bd₂ h₂]

/-- C1: `_numba_kernel` accepts a candidate anchor — whatever the current
state of the offset-bound accumulators — if and only if its aggregate match
ratio (1 + sum of sub-point scores) / (N + 1) is at least the similarity
threshold, where a sub point scores 1 - (|ΔB| + |ΔG| + |ΔR|) / 765 when it
lies in the frame and each channel deviation is within its tolerance, and 0
otherwise. -/
theorem c1_kernel_accepts_iff_aggregate_ratio (img : Image)
    (subs : List SubColor) (thr : ℚ) (bd : OffsetBounds) (c : ℤ × ℤ) :
    candidateAccepted img subs thr bd c ↔
      thr ≤ (1 + (subs.map (subScore img c.1 c.2)).sum) / ((subs.length : ℚ) + 1) :=
  accepted_iff_ratio img subs thr bd c

/-- C3: the early-exit kernel returns exactly the same result as the naive
scan that evaluates all N sub points for every candidate — on every
candidate list, frame, sub-point table and threshold, the accepted
candidate and the returned tuple are unchanged. -/
theorem c3_kernel_eq_naive_scan (cands : List (ℤ × ℤ)) (img : Image)
    (subs : List SubColor) (thr : ℚ) :
    numba_kernel cands img subs thr = naive_kernel cands img subs thr :=
  kernelLoop_eq_naiveLoop img subs thr cands zeroBounds zeroBounds
    (zeroBounds_inv subs) (zeroBounds_inv subs)

/-- C4: whenever `_numba_kernel` returns a result, its first four
components are (main_x + min X, main_y + min Y, max X - min X, max Y - min Y)
for X = {0} ∪ x-offsets and Y = {0} ∪ y-offsets of the full sub-point
constellation (maxOffX/minOffX/maxOffY/minOffY fold exactly these extrema,
starting from the anchor's 0), for some accepted anchor (main_y, main_x) of
the candidate list — even though the source accumulates the bounds
incrementally across loop iterations. -/
theorem c4_box_from_full_constellation (cands : List (ℤ × ℤ)) (img : Image)
    (subs : List SubColor) (thr : ℚ) (res : KResult)
    (h : numba_kernel cands img subs thr = some res) :
    res.w = maxOffX subs - minOffX subs ∧
    res.h = maxOffY subs - minOffY subs ∧
    ∃ c ∈ cands, thr ≤ aggRatio img c.1 c.2 subs ∧
      res.x = c.2 + minOffX subs ∧ res.y = c.1 + minOffY subs := by
  obtain ⟨pre, c, post, heq, hpre, hacc, hres⟩ :=
    kernelLoop_some_split img subs thr cands zeroBounds res (zeroBounds_inv subs) h
  have hmem : c ∈ cands := by
    rw [heq]
    exact List.mem_append_right _ (List.mem_cons_self _ _)
  rw [hres]
  exact ⟨rfl, rfl, c, hmem, hacc, rfl, rfl⟩

theorem allCoords_pairwise (h w : ℕ) :
    (allCoords h w).Pairwise
      (fun a b : ℕ × ℕ => a.1 < b.1 ∨ (a.1 = b.1 ∧ a.2 < b.2)) := by
  unfold allCoords
  rw [List.pairwise_flatMap]
  constructor
  · intro y hy
    rw [List.pairwise_map]
    exact List.Pairwise.imp (fun hlt => Or.inr ⟨rfl, hlt⟩) (List.pairwise_lt_range w)
  · refine List.Pairwise.imp ?_ (List.pairwise_lt_range h)
    intro y₁ y₂ hlt a ha b hb
    obtain ⟨x₁, hx₁, rfl⟩ := List.mem_map.mp ha
    obtain ⟨x₂, hx₂, rfl⟩ := List.mem_map.mp hb
    exact Or.inl hlt

theorem candList_map_pairwise (img : Image) (mb mt : BGR) :
    ((candList img mb mt).map toIntPair).Pairwise
      (fun a b : ℤ × ℤ => a.1 < b.1 ∨ (a.1 = b.1 ∧ a.2 < b.2)) := by
  rw [List.pairwise_map]
  apply List.Pairwise.sublist (List.filter_sublist (allCoords img.h img.w))
  refine List.Pairwise.imp ?_ (allCoords_pairwise img.h img.w)
  intro a b hr
  simp only [toIntPair]
  rcases hr with h1 | ⟨h1, h2⟩
  · exact Or.inl (by exact_mod_cast h1)
  · exact Or.inr ⟨by exact_mod_cast h1, by exact_mod_cast h2⟩

/-- C6: when the kernel is run on the row-major candidate list produced by
`find_multi_color`'s mask and it returns a result, the candidate list
splits as pre ++ c :: post where every candidate of pre has aggregate ratio
strictly below the threshold, c is accepted and the result is c's match —
so the first accepting candidate in array order wins — and every accepting
candidate of the whole list is lexicographically at or after c (topmost,
then leftmost), whatever its own similarity. -/
theorem c6_first_accepting_candidate_wins (img : Image) (mb mt : BGR)
    (subs : List SubColor) (thr : ℚ) (res : KResult)
    (h : numba_kernel ((candList img mb mt).map toIntPair) img subs thr = some res) :
    ∃ pre c post,
      (candList img mb mt).map toIntPair = pre ++ c :: post ∧
      (∀ d ∈ pre, aggRatio img d.1 d.2 subs < thr) ∧
      thr ≤ aggRatio img c.1 c.2 subs ∧
      res = specResult img subs c ∧
      (∀ d ∈ (candList img mb mt).map toIntPair,
        thr ≤ aggRatio img d.1 d.2 subs →
        c.1 < d.1 ∨ (c.1 = d.1 ∧ c.2 ≤ d.2)) := by
  obtain ⟨pre, c, post, heq, hpre, hacc, hres⟩ :=
    kernelLoop_some_split img subs thr ((candList img mb mt).map toIntPair)
      zeroBounds res (zeroBounds_inv subs) h
  refine ⟨pre, c, post, heq, hpre, hacc, hres, ?_⟩
  have hpw := candList_map_pairwise img mb mt
  rw [heq] at hpw
  intro d hd hdacc
  rw [heq] at hd
  rcases List.mem_append.mp hd with hdpre | hdrest
  · exact absurd hdacc (not_le.mpr (hpre d hdpre))
  · rcases List.mem_cons.mp hdrest with rfl | hdpost
    · exact Or.inr ⟨rfl, le_refl _⟩
    · have h2 := (List.pairwise_append.mp hpw).2.1
      have h3 := (List.pairwise_cons.mp h2).1 d hdpost
      rcases h3 with h4 | ⟨h4, h5⟩
      · exact Or.inl h4
      · exact Or.inr ⟨h4, le_of_lt h5⟩

theorem mem_allCoords (h w : ℕ) (c : ℕ × ℕ) :
    c ∈ allCoords h w ↔ c.1 < h ∧ c.2 < w := by
  unfold allCoords
  rw [List.mem_flatMap]
  constructor
  · rintro ⟨y, hy, hc⟩
    obtain ⟨x, hx, rfl⟩ := List.mem_map.mp hc
    exact ⟨List.mem_range.mp hy, List.mem_range.mp hx⟩
  · rintro ⟨h1, h2⟩
    refine ⟨c.1, List.mem_range.mpr h1, List.mem_map.mpr ⟨c.2, List.mem_range.mpr h2, ?_⟩⟩
    exact Prod.mk.eta

theorem mem_candList (img : Image) (mb mt : BGR) (c : ℕ × ℕ) :
    c ∈ candList img mb mt ↔
      c.1 < img.h ∧ c.2 < img.w ∧ maskAt img mb mt c.1 c.2 := by
  unfold candList
  rw [List.mem_filter, mem_allCoords, decide_eq_true_eq, and_assoc]

theorem chanInRange_iff_abs (p m t : ℤ) (hp0 : 0 ≤ p) (hp255 : p ≤ 255)
    (hm0 : 0 ≤ m) (hm255 : m ≤ 255) (ht : 0 ≤ t) :
    chanInRange p m t ↔ |p - m| ≤ t := by
  unfold chanInRange clip255
  rw [abs_le]
  omega

/-- C2: a pixel of the captured frame is selected as a candidate anchor if
and only if it lies in the frame and, for each of its B, G and R channels,
the absolute deviation from the main color is at most the per-channel
tolerance; since pixel values and parsed main-color channels lie in
[0, 255] and tolerances are nonnegative, the clipping of the mask bounds to
[0, 255] never changes the candidate set. -/
theorem c2_candidate_iff_channel_deviation (img : Image) (mb mt : BGR)
    (y x : ℕ)
    (hb : 0 ≤ (img.pix (y : ℤ) (x : ℤ)).b ∧ (img.pix (y : ℤ) (x : ℤ)).b ≤ 255)
    (hg : 0 ≤ (img.pix (y : ℤ) (x : ℤ)).g ∧ (img.pix (y : ℤ) (x : ℤ)).g ≤ 255)
    (hr : 0 ≤ (img.pix (y : ℤ) (x : ℤ)).r ∧ (img.pix (y : ℤ) (x : ℤ)).r ≤ 255)
    (hmb : 0 ≤ mb.b ∧ mb.b ≤ 255) (hmg : 0 ≤ mb.g ∧ mb.g ≤ 255)
    (hmr : 0 ≤ mb.r ∧ mb.r ≤ 255)
    (htb : 0 ≤ mt.b) (htg : 0 ≤ mt.g) (htr : 0 ≤ mt.r) :
    (y, x) ∈ candList img mb mt ↔
      y < img.h ∧ x < img.w ∧
      |(img.pix (y : ℤ) (x : ℤ)).b - mb.b| ≤ mt.b ∧
      |(img.pix (y : ℤ) (x : ℤ)).g - mb.g| ≤ mt.g ∧
      |(img.pix (y : ℤ) (x : ℤ)).r - mb.r| ≤ mt.r := by
  rw [mem_candList]
  unfold maskAt
  rw [chanInRange_iff_abs _ _ _ hb.1 hb.2 hmb.1 hmb.2 htb,
    chanInRange_iff_abs _ _ _ hg.1 hg.2 hmg.1 hmg.2 htg,
    chanInRange_iff_abs _ _ _ hr.1 hr.2 hmr.1 hmr.2 htr]

/-- C5: `find_multi_color` returns None exactly when no pixel of the
captured frame passes the primary color mask or no candidate anchor
reaches the similarity threshold; otherwise it returns the kernel's box
translated by the region's top-left corner together with the similarity,
which is at least the requested threshold. -/
theorem c5_none_iff_and_translated_box (img : Image) (mb mt : BGR)
    (subs : List SubColor) (sim : ℚ) (left top : ℤ) :
    (find_multi_color_core img mb mt subs sim left top = none ↔
      (∀ y x : ℕ, y < img.h → x < img.w → ¬ maskAt img mb mt y x) ∨
      (∀ c ∈ (candList img mb mt).map toIntPair,
        aggRatio img c.1 c.2 subs < sim)) ∧
    (∀ res, numba_kernel ((candList img mb mt).map toIntPair) img subs sim
        = some res →
      find_multi_color_core img mb mt subs sim left top =
        some ((res.x + left, res.y + top, res.w, res.h), res.sim) ∧
      sim ≤ res.sim) := by
  constructor
  · simp only [find_multi_color_core]
    by_cases hlen : ((candList img mb mt).map toIntPair).length = 0
    · rw [if_pos hlen]
      have hnil : candList img mb mt = [] := by
        rw [List.length_map] at hlen
        exact List.length_eq_zero.mp hlen
      constructor
      · intro _
        left
        intro y x hy hx hmask
        have : (y, x) ∈ candList img mb mt :=
          (mem_candList img mb mt (y, x)).mpr ⟨hy, hx, hmask⟩
        rw [hnil] at this
        cases this
      · intro _
        rfl
    · rw [if_neg hlen]
      cases hk : numba_kernel ((candList img mb mt).map toIntPair) img subs sim with
      | none =>
        simp only
        constructor
        · intro _
          right
          exact (kernelLoop_none_iff img subs sim _ zeroBounds).mp hk
        · intro _
          trivial
      | some r =>
        simp only
        constructor
        · intro habs
          exact Option.noConfusion habs
        · intro hall
          rcases hall with hnone | hrej
          · apply absurd hlen
            intro _
            apply hlen
            rw [List.length_map, List.length_eq_zero, List.eq_nil_iff_forall_not_mem]
            intro c hc
            obtain ⟨h1, h2, h3⟩ := (mem_candList img mb mt c).mp hc
            exact hnone c.1 c.2 h1 h2 h3
          · have hnone := (kernelLoop_none_iff img subs sim _ zeroBounds).mpr hrej
            have hcontra : (none : Option KResult) = some r := hnone.symm.trans hk
            exact Option.noConfusion hcontra
  · intro res hk
    have hne : ((candList img mb mt).map toIntPair).length ≠ 0 := by
      intro hz
      rw [List.length_eq_zero.mp hz] at hk
      cases hk
    simp only [find_multi_color_core]
    rw [if_neg hne, hk]
    refine ⟨rfl, ?_⟩
    obtain ⟨pre, c, post, heq, hpre, hacc, hres⟩ :=
      kernelLoop_some_split img subs sim ((candList img mb mt).map toIntPair)
        zeroBounds res (zeroBounds_inv subs) hk
    rw [hres]
    exact hacc

theorem javaLocation_depth_succ_ne (j k : JavaLocation)
    (h : k.depth = j.depth + 1) : k ≠ j := by
  intro he
  rw [he] at h
  omega

/-- C7: each navigation method of `Location` (offset, above, below, left,
right) invokes exactly the corresponding remote method on the wrapped
handle with the same arguments, wraps the remote result in a new Location
whose handle differs from the original, and the original handle is an input
the methods never mutate. -/
theorem c7_location_methods_forward (loc : Location) (dx dy d : ℤ) :
    ((loc.offset dx dy).raw = JavaLocation.callOffset loc.raw dx dy ∧
      (loc.offset dx dy).raw ≠ loc.raw) ∧
    ((loc.above d).raw = JavaLocation.callAbove loc.raw d ∧
      (loc.above d).raw ≠ loc.raw) ∧
    ((loc.below d).raw = JavaLocation.callBelow loc.raw d ∧
      (loc.below d).raw ≠ loc.raw) ∧
    ((loc.left d).raw = JavaLocation.callLeft loc.raw d ∧
      (loc.left d).raw ≠ loc.raw) ∧
    ((loc.right d).raw = JavaLocation.callRight loc.raw d ∧
      (loc.right d).raw ≠ loc.raw) := by
  refine ⟨⟨rfl, ?_⟩, ⟨rfl, ?_⟩, ⟨rfl, ?_⟩, ⟨rfl, ?_⟩, ⟨rfl, ?_⟩⟩
  · exact javaLocation_depth_succ_ne loc.raw _ rfl
  · exact javaLocation_depth_succ_ne loc.raw _ rfl
  · exact javaLocation_depth_succ_ne loc.raw _ rfl
  · exact javaLocation_depth_succ_ne loc.raw _ rfl
  · exact javaLocation_depth_succ_ne loc.raw _ rfl

/-- C8: `SikuliXGateway.start` returns True only when the spawned process
is still alive after the startup delay and the test connection succeeds; it
returns False when `sikulix_path` is unset and no JAR is found, and when
the process has already exited at the health check; and `stop` on a
gateway whose process was never started returns with no action and an
unchanged state. -/
theorem c8_gateway_start_stop (gw : SikuliXGateway) (env : GatewayEnv)
    (wt : Bool) :
    ((gw.start env).1 = true →
      env.aliveAfterDelay = true ∧ env.connectionOk = true) ∧
    (gw.sikulixPath = none → env.jarLookup = none → (gw.start env).1 = false) ∧
    (env.aliveAfterDelay = false → (gw.start env).1 = false) ∧
    (gw.gatewayProcess = none → gw.stop wt = (gw, [])) := by
  obtain ⟨port, proc, path⟩ := gw
  obtain ⟨jar, alive, conn⟩ := env
  refine ⟨?_, ?_, ?_, ?_⟩
  · intro h
    cases path <;> cases jar <;> cases alive <;> cases conn <;>
      simp_all [SikuliXGateway.start]
  · intro h1 h2
    subst h1
    subst h2
    cases alive <;> simp [SikuliXGateway.start]
  · intro h
    subst h
    cases path <;> cases jar <;> simp [SikuliXGateway.start]
  · intro h
    subst h
    simp [SikuliXGateway.stop]

theorem subScore_congr (img img' : Image) (hh : img.h = img'.h)
    (hw : img.w = img'.w)
    (hpix : ∀ y x : ℤ, 0 ≤ y → y < (img.h : ℤ) → 0 ≤ x → x < (img.w : ℤ) →
      img.pix y x = img'.pix y x)
    (my mx : ℤ) (sc : SubColor) :
    subScore img my mx sc = subScore img' my mx sc := by
  simp only [subScore]
  by_cases hin : 0 ≤ mx + sc.offX ∧ mx + sc.offX < (img.w : ℤ) ∧
      0 ≤ my + sc.offY ∧ my + sc.offY < (img.h : ℤ)
  · have hin' : 0 ≤ mx + sc.offX ∧ mx + sc.offX < (img'.w : ℤ) ∧
        0 ≤ my + sc.offY ∧ my + sc.offY < (img'.h : ℤ) := by
      rw [← hh, ← hw]
      exact hin
    rw [if_pos hin, if_pos hin',
      hpix (my + sc.offY) (mx + sc.offX) hin.2.2.1 hin.2.2.2 hin.1 hin.2.1]
  · have hin' : ¬ (0 ≤ mx + sc.offX ∧ mx + sc.offX < (img'.w : ℤ) ∧
        0 ≤ my + sc.offY ∧ my + sc.offY < (img'.h : ℤ)) := by
      rw [← hh, ← hw]
      exact hin
    rw [if_neg hin, if_neg hin']

theorem innerLoop_congr (img img' : Image) (hh : img.h = img'.h)
    (hw : img.w = img'.w)
    (hpix : ∀ y x : ℤ, 0 ≤ y → y < (img.h : ℤ) → 0 ≤ x → x < (img.w : ℤ) →
      img.pix y x = img'.pix y x)
    (my mx : ℤ) (ms : ℚ) :
    ∀ (l : List SubColor) (acc : ℚ) (bd : OffsetBounds),
      innerLoop img my mx ms l acc bd = innerLoop img' my mx ms l acc bd := by
  intro l
  induction l with
  | nil =>
    intro acc bd
    rfl
  | cons sc rest ih =>
    intro acc bd
    simp only [innerLoop, subScore_congr img img' hh hw hpix my mx sc]
    split_ifs
    · rfl
    · exact ih _ _

theorem kernelLoop_congr (img img' : Image) (hh : img.h = img'.h)
    (hw : img.w = img'.w)
    (hpix : ∀ y x : ℤ, 0 ≤ y → y < (img.h : ℤ) → 0 ≤ x → x < (img.w : ℤ) →
      img.pix y x = img'.pix y x)
    (subs : List SubColor) (thr : ℚ) :
    ∀ (cands : List (ℤ × ℤ)) (bd : OffsetBounds),
      (∀ c ∈ cands, 0 ≤ c.1 ∧ c.1 < (img.h : ℤ) ∧ 0 ≤ c.2 ∧ c.2 < (img.w : ℤ)) →
      kernelLoop img subs thr cands bd = kernelLoop img' subs thr cands bd := by
  intro cands
  induction cands with
  | nil =>
    intro bd _
    rfl
  | cons c rest ih =>
    intro bd hcands
    have hc := hcands c (List.mem_cons_self _ _)
    have hpc : img.pix c.1 c.2 = img'.pix c.1 c.2 :=
      hpix c.1 c.2 hc.1 hc.2.1 hc.2.2.1 hc.2.2.2
    simp only [kernelLoop, innerLoop_congr img img' hh hw hpix c.1 c.2, hpc]
    split_ifs
    · exact ih _ (fun d hd => hcands d (List.mem_cons_of_mem _ hd))
    · rfl

/-- C9: every sub-point pixel read of `_numba_kernel` is bounds-checked: a
sub point whose anchor-relative position falls outside the frame scores 0
without disqualifying the anchor (acceptance still follows the aggregate
ratio, in which the point contributes 0), and for candidate anchors inside
the frame the kernel's result never depends on image values outside
[0, h) × [0, w). -/
theorem c9_out_of_frame_reads_never_matter :
    (∀ (img : Image) (my mx : ℤ) (sc : SubColor),
      ¬ (0 ≤ mx + sc.offX ∧ mx + sc.offX < (img.w : ℤ) ∧
          0 ≤ my + sc.offY ∧ my + sc.offY < (img.h : ℤ)) →
      subScore img my mx sc = 0) ∧
    (∀ (img : Image) (subs : List SubColor) (thr : ℚ) (bd : OffsetBounds)
        (c : ℤ × ℤ),
      thr ≤ aggRatio img c.1 c.2 subs → candidateAccepted img subs thr bd c) ∧
    (∀ (img img' : Image) (cands : List (ℤ × ℤ)) (subs : List SubColor)
        (thr : ℚ),
      img.h = img'.h → img.w = img'.w →
      (∀ y x : ℤ, 0 ≤ y → y < (img.h : ℤ) → 0 ≤ x → x < (img.w : ℤ) →
        img.pix y x = img'.pix y x) →
      (∀ c ∈ cands, 0 ≤ c.1 ∧ c.1 < (img.h : ℤ) ∧ 0 ≤ c.2 ∧ c.2 < (img.w : ℤ)) →
      numba_kernel cands img subs thr = numba_kernel cands img' subs thr) := by
  refine ⟨?_, ?_, ?_⟩
  · intro img my mx sc hout
    simp only [subScore]
    rw [if_neg hout]
  · intro img subs thr bd c h
    exact (accepted_iff_ratio img subs thr bd c).mpr h
  · intro img img' cands subs thr hh hw hpix hcands
    exact kernelLoop_congr img img' hh hw hpix subs thr cands zeroBounds hcands

theorem collectSubs_none_iff (l : List (List Char)) :
    collectSubs l = none ↔ ∃ e ∈ l, entryErrs e = true := by
  induction l with
  | nil => simp [collectSubs]
  | cons e rest ih =>
    simp only [collectSubs]
    cases hpe : parseSubEntry e with
    | skip => simp [entryErrs, hpe, ih]
    | err => simp [entryErrs, hpe]
    | sub sc => simp [entryErrs, hpe, ih, Option.map_eq_none']

theorem collectSubs_eq_filterMap (l : List (List Char))
    (h : ∀ e ∈ l, entryErrs e = false) :
    collectSubs l = some (l.filterMap (fun e =>
      match parseSubEntry e with
      | .sub sc => some sc
      | _ => none)) := by
  induction l with
  | nil => simp [collectSubs]
  | cons e rest ih =>
    have he := h e (List.mem_cons_self _ _)
    have hrest := ih (fun e' he' => h e' (List.mem_cons_of_mem _ he'))
    simp only [collectSubs, List.filterMap_cons]
    cases hpe : parseSubEntry e with
    | skip => simp [hpe, hrest]
    | err => simp [entryErrs, hpe] at he
    | sub sc => simp [hpe, hrest]

theorem filterMap_sub_length (l : List (List Char)) :
    (l.filterMap (fun e =>
      match parseSubEntry e with
      | .sub sc => some sc
      | _ => none)).length = (l.filter entryIsSub).length := by
  induction l with
  | nil => rfl
  | cons e rest ih =>
    cases hpe : parseSubEntry e with
    | skip => simp [List.filterMap_cons, List.filter_cons, hpe, entryIsSub, ih]
    | err => simp [List.filterMap_cons, List.filter_cons, hpe, entryIsSub, ih]
    | sub sc => simp [List.filterMap_cons, List.filter_cons, hpe, entryIsSub, ih]

/-- C10 counterexample: on the color string
"ffffff|000000,1|2|aabbcc,3|4|zzzzzz" — valid 6-digit main color and
tolerance, one valid sub point, region None — the claim predicts no
ValueError (the specification parses to one valid offset sub point and the
region is not a length-1 sequence), yet `find_multi_color` raises: the
third entry's 6-character color field "zzzzzz" reaches int(s, 16), whose
ValueError is not caught by the parsing loop. -/
theorem c10_counterexample_uncaught_hex_error :
    fmc_validate 2560 1440 c10Input none = FMCOutcome.valueError ∧
    validSubCount c10Input = 1 := by
  constructor
  · decide
  · decide

/-- C10 amended: with a valid 6-digit hex main color field and (optional)
tolerance field, `find_multi_color` raises ValueError if and only if some
sub-point entry aborts parsing with an uncaught int(s, 16) ValueError
(parseable offsets and a 6-character color or bias field that is not valid
hex), or the specification parses to zero valid offset sub points, or the
region argument is a sequence of length exactly 1; region sequences of
length 2 or 3 are accepted with width/height the screen size minus
left/top, and all other malformed sub-point entries are silently dropped
(parsing returns exactly the valid entries' sub points). -/
theorem c10_amended_validation (screenW screenH : ℤ) (s : List Char)
    (region : Option (List ℤ)) (mb mt : ℤ × ℤ × ℤ)
    (hm : parseMain s = some (mb, mt)) :
    (fmc_validate screenW screenH s region = FMCOutcome.valueError ↔
      (∃ e ∈ (pySplit ',' s).drop 1, entryErrs e = true) ∨
      validSubCount s = 0 ∨
      (∃ r, region = some r ∧ r.length = 1)) ∧
    (∀ r, region = some r → 2 ≤ r.length → r.length ≤ 3 →
      (∀ e ∈ (pySplit ',' s).drop 1, entryErrs e = false) →
      validSubCount s ≠ 0 →
      fmc_validate screenW screenH s region =
        FMCOutcome.search mb mt (subsOf s) (r.getD 0 0) (r.getD 1 0)
          (screenW - r.getD 0 0) (screenH - r.getD 1 0)) ∧
    ((∀ e ∈ (pySplit ',' s).drop 1, entryErrs e = false) →
      parse_config s = some (mb, mt, subsOf s)) := by
  have hcount : ∀ hall : ∀ e ∈ (pySplit ',' s).drop 1, entryErrs e = false,
      collectSubs ((pySplit ',' s).drop 1) = some (subsOf s) :=
    fun hall => collectSubs_eq_filterMap _ hall
  refine ⟨?_, ?_, ?_⟩
  · unfold fmc_validate parse_config
    rw [hm]
    by_cases herr : ∃ e ∈ (pySplit ',' s).drop 1, entryErrs e = true
    · rw [(collectSubs_none_iff _).mpr herr]
      simp only
      exact iff_of_true (by trivial) (Or.inl herr)
    · have hall : ∀ e ∈ (pySplit ',' s).drop 1, entryErrs e = false := by
        intro e he
        rcases Bool.eq_false_or_eq_true (entryErrs e) with ht | hf
        · exact absurd ⟨e, he, ht⟩ herr
        · exact hf
      rw [hcount hall]
      simp only
      have hlen : (subsOf s).length = validSubCount s := by
        unfold subsOf validSubCount
        exact filterMap_sub_length _
      by_cases hz : validSubCount s = 0
      · rw [if_pos (hlen.trans hz)]
        exact iff_of_true (by trivial) (Or.inr (Or.inl hz))
      · rw [if_neg (fun hc => hz (hlen.symm.trans hc))]
        cases region with
        | none =>
          simp only
          constructor
          · intro habs
            exact FMCOutcome.noConfusion habs
          · intro hall2
            rcases hall2 with h1 | h2 | ⟨r, hr, _⟩
            · exact absurd h1 herr
            · exact absurd h2 hz
            · exact Option.noConfusion hr
        | some r =>
          simp only
          by_cases h0 : r.length = 0
          · rw [if_pos h0]
            constructor
            · intro habs
              exact FMCOutcome.noConfusion habs
            · intro hall2
              rcases hall2 with h1 | h2 | ⟨r', hr', hr1⟩
              · exact absurd h1 herr
              · exact absurd h2 hz
              · rw [Option.some.inj hr'] at h0
                omega
          · rw [if_neg h0]
            by_cases h4 : 4 ≤ r.length
            · rw [if_pos h4]
              constructor
              · intro habs
                exact FMCOutcome.noConfusion habs
              · intro hall2
                rcases hall2 with h1 | h2 | ⟨r', hr', hr1⟩
                · exact absurd h1 herr
                · exact absurd h2 hz
                · rw [Option.some.inj hr'] at h4
                  omega
            · rw [if_neg h4]
              by_cases h2 : 2 ≤ r.length
              · rw [if_pos h2]
                constructor
                · intro habs
                  exact FMCOutcome.noConfusion habs
                · intro hall2
                  rcases hall2 with h1 | hv | ⟨r', hr', hr1⟩
                  · exact absurd h1 herr
                  · exact absurd hv hz
                  · rw [Option.some.inj hr'] at h2
                    omega
              · rw [if_neg h2]
                refine iff_of_true (by trivial) (Or.inr (Or.inr ⟨r, rfl, ?_⟩))
                omega
  · intro r hr h2 h3 hall hcnt
    subst hr
    unfold fmc_validate parse_config
    rw [hm, hcount hall]
    simp only
    have hlen : (subsOf s).length = validSubCount s := by
      unfold subsOf validSubCount
      exact filterMap_sub_length _
    rw [if_neg (fun hc => hcnt (hlen.symm.trans hc))]
    rw [if_neg (by omega : ¬ r.length = 0), if_neg (by omega : ¬ 4 ≤ r.length),
      if_pos h2]
  · intro hall
    unfold parse_config
    rw [hm, hcount hall]

/-- Witness for C2 at a concrete 1 × 1 frame: the pixel (0, 0) is selected
as a candidate because each channel deviates by at most the tolerance. -/
theorem c2_candidate_witness :
    ((0 : ℕ), (0 : ℕ)) ∈ candList wImgA ⟨1, 2, 3⟩ ⟨0, 0, 0⟩ :=
  (c2_candidate_iff_channel_deviation wImgA ⟨1, 2, 3⟩ ⟨0, 0, 0⟩ 0 0
    (by decide) (by decide) (by decide) (by decide) (by decide) (by decide)
    (by decide) (by decide) (by decide)).mpr (by decide)

/-- Witness for C4 at a concrete run returning `wRes`. -/
theorem c4_box_witness :
    wRes.w = maxOffX wSubs - minOffX wSubs ∧
    wRes.h = maxOffY wSubs - minOffY wSubs ∧
    ∃ c ∈ wCands, (1 : ℚ)/2 ≤ aggRatio wImgA c.1 c.2 wSubs ∧
      wRes.x = c.2 + minOffX wSubs ∧ wRes.y = c.1 + minOffY wSubs :=
  c4_box_from_full_constellation wCands wImgA wSubs (1/2) wRes (by
    norm_num [numba_kernel, kernelLoop, innerLoop, subScore, updBounds,
      zeroBounds, wImgA, wSubs, wCands, wRes])

/-- Witness for C6 at a concrete mask-driven run returning `wRes`. -/
theorem c6_first_accepting_witness :
    ∃ pre c post,
      (candList wImgA ⟨1, 2, 3⟩ ⟨0, 0, 0⟩).map toIntPair = pre ++ c :: post ∧
      (∀ d ∈ pre, aggRatio wImgA d.1 d.2 wSubs < 1/2) ∧
      (1 : ℚ)/2 ≤ aggRatio wImgA c.1 c.2 wSubs ∧
      wRes = specResult wImgA wSubs c ∧
      (∀ d ∈ (candList wImgA ⟨1, 2, 3⟩ ⟨0, 0, 0⟩).map toIntPair,
        (1 : ℚ)/2 ≤ aggRatio wImgA d.1 d.2 wSubs →
        c.1 < d.1 ∨ (c.1 = d.1 ∧ c.2 ≤ d.2)) := by
  apply c6_first_accepting_candidate_wins wImgA ⟨1, 2, 3⟩ ⟨0, 0, 0⟩ wSubs (1/2) wRes
  have hc : (candList wImgA ⟨1, 2, 3⟩ ⟨0, 0, 0⟩).map toIntPair = wCands := by decide
  rw [hc]
  norm_num [numba_kernel, kernelLoop, innerLoop, subScore, updBounds,
    zeroBounds, wImgA, wSubs, wCands, wRes]

/-- Witness for the amended C10 at a concrete color string and a length-2
region: the search rectangle is the screen size minus the region corner. -/
theorem c10_amended_witness :
    fmc_validate 2560 1440 c10WitnessInput (some [5, 7]) =
      FMCOutcome.search (255, 255, 255) (0, 0, 0)
        [⟨1, 2, 204, 187, 170, 0, 0, 0⟩] 5 7 2555 1433 := by
  have h := c10_amended_validation 2560 1440 c10WitnessInput (some [5, 7])
    (255, 255, 255) (0, 0, 0) (by decide)
  have h2 := h.2.1 [5, 7] rfl (by decide) (by decide) (by decide) (by decide)
  have hs : subsOf c10WitnessInput = [⟨1, 2, 204, 187, 170, 0, 0, 0⟩] := by decide
  rw [hs] at h2
  exact h2

end PySikulix
